import Mathlib

/-
Verification development for the o1js-dynamic-sha256 repository.

Shallow embedding conventions:
- o1js `UInt32` words and `Field` elements carrying 32-bit values are `Nat`
  with explicit reduction `% 2 ^ 32` where the code reduces mod 2^32.
- o1js `Bytes` values are `List Nat` of byte values.
- circuit assertions (`assertEquals`, `assert`) become `Except String`
  failures carrying the assertion's error message.
- the trusted external compression primitive (o1js `Gadgets.SHA256`) is
  embedded as the pure FIPS-180-4 compression function
  `compress(state, block) -> state'`, as the specification stipulates.
-/

set_option maxRecDepth 8000

instance {ε α : Type} [DecidableEq ε] [DecidableEq α] : DecidableEq (Except ε α) := fun a b =>
  match a, b with
  | Except.error e, Except.error f =>
    if h : e = f then isTrue (congrArg Except.error h)
    else isFalse (fun hh => h (Except.error.inj hh))
  | Except.error _, Except.ok _ => isFalse (fun hh => Except.noConfusion hh)
  | Except.ok _, Except.error _ => isFalse (fun hh => Except.noConfusion hh)
  | Except.ok x, Except.ok y =>
    if h : x = y then isTrue (congrArg Except.ok h)
    else isFalse (fun hh => h (Except.ok.inj hh))

/-- Accumulator loop of `bytesToWord` (src/src/utils.ts, `reduce` over the byte
array with running index `idx` and accumulator `acc`). -/
def bytesToWordAux (reverseEndianness : Bool) : Nat → Nat → List Nat → Nat
  | _, acc, [] => acc
  | idx, acc, byte :: rest =>
    bytesToWordAux reverseEndianness (idx + 1)
      (acc + byte * 2 ^ (8 * (if reverseEndianness then 3 - idx else idx))) rest

/-- Embedding of `bytesToWord` from src/src/utils.ts: combine bytes into one word, little
endian by default, shift `3 - idx` when `reverseEndianness` is set. -/
def bytesToWord (wordBytes : List Nat) (reverseEndianness : Bool) : Nat :=
  bytesToWordAux reverseEndianness 0 0 wordBytes

/-- Embedding of `wordToBytes` from src/src/utils.ts: witness the byte decomposition of a
word and assert that recombining the bytes gives back the word. -/
def wordToBytes (word : Nat) (bytesPerWord : Nat) (reverseEndianness : Bool) :
    Except String (List Nat) :=
  let bytes := (List.range bytesPerWord).map
    (fun k => word / 2 ^ (8 * (if reverseEndianness then 3 - k else k)) % 256)
  if bytesToWord bytes reverseEndianness = word then Except.ok bytes
  else Except.error "Field.assertEquals(): byte decomposition does not match the word"

/-- Embedding of `chunk` from src/src/utils.ts: assert the length is a multiple of `size`,
then slice the array into `array.length / size` chunks of `size` elements. -/
def chunkE (array : List Nat) (size : Nat) : Except String (List (List Nat)) :=
  if array.length % size = 0 then
    Except.ok ((List.range (array.length / size)).map
      (fun i => (array.drop (size * i)).take size))
  else Except.error ("Array length must be a multiple of " ++ toString size)

/-- Embedding of `bytesToWords` from src/src/utils.ts: chunk the bytes into words of
`bytesPerWord` bytes and combine each chunk with `reverseEndianness = true`. -/
def bytesToWords (bytes : List Nat) (bytesPerWord : Nat) : Except String (List Nat) :=
  match chunkE bytes bytesPerWord with
  | Except.ok chunks => Except.ok (chunks.map (fun c => bytesToWord c true))
  | Except.error e => Except.error e

/-- Embedding of `generateMessageBlocks` from src/src/utils.ts: group the padded message's
bytes 4 at a time (the loop `i += 4` takes `slice(i, i + 4).reverse()`), and
chunk the resulting words into 16-word message blocks. -/
def generateMessageBlocks (paddedMessage : List Nat) : Except String (List (List Nat)) :=
  let chunks := (List.range ((paddedMessage.length + 3) / 4)).map
    (fun i => bytesToWord ((paddedMessage.drop (4 * i)).take 4).reverse false)
  chunkE chunks 16

/-- Error message of the `totalIndex.assertEquals(1, ...)` check in
`wordAtIndex` (src/src/utils.ts). -/
def invalidIndexMsg : String := "Invalid index: Index out of bounds or multiple indices match!"

/-- Embedding of `wordAtIndex` from src/src/utils.ts: sum the equality indicators and the
indicator-weighted words over every position, assert the indicator sum is 1,
and return the weighted sum. -/
def wordAtIndex (wordsArray : List Nat) (index : Nat) : Except String Nat :=
  let totalValues := ((List.range wordsArray.length).map
    (fun i => (if index = i then 1 else 0) * wordsArray.getD i 0)).sum
  let totalIndex := ((List.range wordsArray.length).map
    (fun i => (if index = i then 1 else 0 : Nat))).sum
  if totalIndex = 1 then Except.ok totalValues else Except.error invalidIndexMsg

/-- Error message of the zero-padding assertion at flat word position `i`
(src/src/utils.ts, `assertZeroPadding`). -/
def paddingErrorMsg (i : Nat) : String :=
  "Padding error at index " ++ toString i ++ ": expected zero."

/-- Loop body of `assertZeroPadding` (src/src/utils.ts): at flat position `i`
assert `word * (if i > paddingStart then 1 else 0) = 0`. -/
def zeroPadCheckAux (paddingStart : Nat) : Nat → List Nat → Except String Unit
  | _, [] => Except.ok ()
  | i, w :: rest =>
    if w * (if paddingStart < i then 1 else 0) = 0 then
      zeroPadCheckAux paddingStart (i + 1) rest
    else Except.error (paddingErrorMsg i)

/-- Embedding of `assertZeroPadding` from src/src/utils.ts: compute
`paddingStartIndex = (digestIndex + 8) * 2`, flatten the 16-word message
blocks, and assert every word strictly past `paddingStartIndex` is zero. -/
def assertZeroPadding (messageBlocks : List (List Nat)) (digestIndex : Nat) :
    Except String Unit :=
  zeroPadCheckAux ((digestIndex + 8) * 2) 0 messageBlocks.flatten

/-- Reduction modulo 2^32, the word range of o1js `UInt32`. -/
def w32 (x : Nat) : Nat := x % 4294967296

/-- 32-bit right rotation of a word `x < 2 ^ 32`. -/
def rotr32 (n x : Nat) : Nat := w32 (x / 2 ^ n + x * 2 ^ (32 - n))

/-- SHA-256 choice function. -/
def shaCh (x y z : Nat) : Nat := Nat.xor (Nat.land x y) (Nat.land (4294967295 - x) z)

/-- SHA-256 majority function. -/
def shaMaj (x y z : Nat) : Nat :=
  Nat.xor (Nat.xor (Nat.land x y) (Nat.land x z)) (Nat.land y z)

/-- SHA-256 big sigma 0. -/
def bigSigma0 (x : Nat) : Nat := Nat.xor (Nat.xor (rotr32 2 x) (rotr32 13 x)) (rotr32 22 x)

/-- SHA-256 big sigma 1. -/
def bigSigma1 (x : Nat) : Nat := Nat.xor (Nat.xor (rotr32 6 x) (rotr32 11 x)) (rotr32 25 x)

/-- SHA-256 small sigma 0. -/
def smallSigma0 (x : Nat) : Nat := Nat.xor (Nat.xor (rotr32 7 x) (rotr32 18 x)) (x / 8)

/-- SHA-256 small sigma 1. -/
def smallSigma1 (x : Nat) : Nat := Nat.xor (Nat.xor (rotr32 17 x) (rotr32 19 x)) (x / 1024)

/-- The 64 SHA-256 round constants (FIPS 180-4). -/
def shaK : List Nat :=
  [1116352408, 1899447441, 3049323471, 3921009573, 961987163,
   1508970993, 2453635748, 2870763221, 3624381080, 310598401,
   607225278, 1426881987, 1925078388, 2162078206, 2614888103,
   3248222580, 3835390401, 4022224774, 264347078, 604807628,
   770255983, 1249150122, 1555081692, 1996064986, 2554220882,
   2821834349, 2952996808, 3210313671, 3336571891, 3584528711,
   113926993, 338241895, 666307205, 773529912, 1294757372,
   1396182291, 1695183700, 1986661051, 2177026350, 2456956037,
   2730485921, 2820302411, 3259730800, 3345764771, 3516065817,
   3600352804, 4094571909, 275423344, 430227734, 506948616,
   659060556, 883997877, 958139571, 1322822218, 1537002063,
   1747873779, 1955562222, 2024104815, 2227730452, 2361852424,
   2428436474, 2756734187, 3204031479, 3329325298]

/-- The standard SHA-256 initial hash state (o1js `Gadgets.SHA256.initialState`). -/
def shaInitialState : List Nat :=
  [1779033703, 3144134277, 1013904242, 2773480762,
   1359893119, 2600822924, 528734635, 1541459225]

/-- SHA-256 message schedule: extend the 16 block words to 64 words
(o1js `Gadgets.SHA256.createMessageSchedule`). -/
def messageSchedule (block : List Nat) : List Nat :=
  (List.range 48).foldl (fun W t =>
    W ++ [w32 (smallSigma1 (W.getD (t + 14) 0) + W.getD (t + 9) 0 +
               smallSigma0 (W.getD (t + 1) 0) + W.getD t 0)]) block

/-- One SHA-256 round on the 8-word working state `v`. -/
def sha256Round (W : List Nat) (t : Nat) (v : List Nat) : List Nat :=
  let t1 := w32 (v.getD 7 0 + bigSigma1 (v.getD 4 0) +
                 shaCh (v.getD 4 0) (v.getD 5 0) (v.getD 6 0) +
                 shaK.getD t 0 + W.getD t 0)
  let t2 := w32 (bigSigma0 (v.getD 0 0) + shaMaj (v.getD 0 0) (v.getD 1 0) (v.getD 2 0))
  [w32 (t1 + t2), v.getD 0 0, v.getD 1 0, v.getD 2 0,
   w32 (v.getD 3 0 + t1), v.getD 4 0, v.getD 5 0, v.getD 6 0]

/-- SHA-256 compression of one schedule into the 8-word state
(o1js `Gadgets.SHA256.compression`): 64 rounds, then add the previous state. -/
def compression256 (H W : List Nat) : List Nat :=
  let v := (List.range 64).foldl (fun v t => sha256Round W t v) H
  (H.zip v).map (fun p => w32 (p.1 + p.2))

/-- One step of the compression loop in `dynamicSHA256`
(src/src/dynamic-sha256.ts): schedule expansion followed by compression. -/
def sha256Step (state block : List Nat) : List Nat :=
  compression256 state (messageSchedule block)

/-- The hash-value sequence built by the loop in `dynamicSHA256`
(src/src/dynamic-sha256.ts): `hashValues[0]` is the seed and
`hashValues[i + 1] = compress(hashValues[i], block[i])`. -/
def compressionPipeline (initialHashValue : List Nat) (messageBlocks : List (List Nat)) :
    List (List Nat) :=
  List.scanl sha256Step initialHashValue messageBlocks

/-- Embedding of `dynamicSHA256` from src/src/dynamic-sha256.ts: split the padded preimage
into blocks, run the compression pipeline from the seed, flatten all hash
states, select 8 words at `digestIndex .. digestIndex + 7` with `wordAtIndex`,
and serialize each selected word to 4 bytes with reversed endianness. -/
def dynamicSHA256 (paddedPreimage : List Nat) (digestIndex : Nat)
    (initialHashValue : List Nat) : Except String (List Nat) := do
  let messageBlocks ← generateMessageBlocks paddedPreimage
  let hashValues := compressionPipeline initialHashValue messageBlocks
  let flattenedHashValues := hashValues.flatten
  let digestWords ← (List.range 8).mapM
    (fun i => wordAtIndex flattenedHashValues (digestIndex + i))
  let digestBytes ← digestWords.mapM (fun x => wordToBytes x 4 true)
  return digestBytes.flatten

/-- Embedding of `partialSHA256` from src/src/dynamic-sha256.ts: parse the precomputed hash
bytes into words with `bytesToWords(·, 4)` and run `dynamicSHA256` with them as
the initial hash value. -/
def partialSHA256 (precomputedHash remainingMessageBlocks : List Nat)
    (digestIndex : Nat) : Except String (List Nat) := do
  let precomputedHashWords ← bytesToWords precomputedHash 4
  dynamicSHA256 remainingMessageBlocks digestIndex precomputedHashWords

/-- Modelled from the spec: `toHashState(precomputed: Bytes32) -> HashState`
interprets 32 bytes as 8 big-endian 32-bit words (spec section 4.6). Reference
definition for the refinement claim about `partialSHA256`. -/
def specToHashState (precomputed : List Nat) : List Nat :=
  (List.range 8).map (fun i =>
    precomputed.getD (4 * i) 0 * 16777216 + precomputed.getD (4 * i + 1) 0 * 65536 +
    precomputed.getD (4 * i + 2) 0 * 256 + precomputed.getD (4 * i + 3) 0)

/-- The 8-byte big-endian bit-length field of standard SHA-256 padding. -/
def lengthField (messageLength : Nat) : List Nat :=
  (List.range 8).map (fun k => 8 * messageLength / 2 ^ (8 * (7 - k)) % 256)

/-- Standard SHA-256 padding of a message: `0x80` marker, zero fill to 56 mod
64, then the 64-bit big-endian message bit length. -/
def standardPad (message : List Nat) : List Nat :=
  message ++ 128 :: List.replicate ((64 - (message.length + 9) % 64) % 64) 0 ++
    lengthField message.length

/-- Modelled from the spec: `sha256Pad` of the external `@zk-email/helpers`
package (called by src/src/helpers.ts but not part of this repository):
standard SHA-256 padding, then zero fill in 8-byte words up to `maxShaBytes`,
failing when `maxShaBytes` cannot be met exactly; returns the filled buffer
and the standard padded length. -/
def sha256Pad (message : List Nat) (maxShaBytes : Nat) : Except String (List Nat × Nat) :=
  let padded := standardPad message
  let messageLen := padded.length
  let filled := padded ++ List.replicate (8 * ((maxShaBytes - messageLen + 7) / 8)) 0
  if filled.length = maxShaBytes then Except.ok (filled, messageLen)
  else Except.error "Padding to max length did not complete properly!"

/-- Embedding of `dynamicSha256Pad` from src/src/helpers.ts: run `sha256Pad` and return the
padded buffer together with `digestIndex = (messagePaddedLen - 64) / 8`. -/
def dynamicSha256Pad (message : List Nat) (maxShaBytes : Nat) :
    Except String (List Nat × Nat) :=
  match sha256Pad message maxShaBytes with
  | Except.ok pr => Except.ok (pr.1, (pr.2 - 64) / 8)
  | Except.error e => Except.error e

/-- The 16-word big-endian message blocks of an already padded byte buffer
(standard SHA-256 block decomposition, FIPS 180-4). -/
def sha256Blocks (paddedBytes : List Nat) : List (List Nat) :=
  (List.range (paddedBytes.length / 64)).map (fun j =>
    (List.range 16).map (fun t =>
      bytesToWord ((paddedBytes.drop (64 * j + 4 * t)).take 4).reverse false))

/-- The standard SHA-256 digest of a message as 32 bytes (FIPS 180-4); the
`standardHash` reference of the specification. -/
def sha256Bytes (message : List Nat) : List Nat :=
  let final := (sha256Blocks (standardPad message)).foldl sha256Step shaInitialState
  (final.map (fun w => [w / 16777216 % 256, w / 65536 % 256, w / 256 % 256, w % 256])).flatten

/-- Fuel-driven helper computing the ceiling of log2. -/
def bitsAux : Nat → Nat → Nat
  | 0, _ => 0
  | fuel + 1, m => if m ≤ 1 then 0 else bitsAux fuel ((m + 1) / 2) + 1

/-- Ceiling of log2: the least `B` with `n ≤ 2 ^ B`. -/
def ceilLog2 (n : Nat) : Nat := bitsAux n n

/-- Left rotation of a word list by `n` positions. -/
def rotWords (l : List Nat) (n : Nat) : List Nat :=
  l.drop (n % l.length) ++ l.take (n % l.length)

/-- Modelled from the spec: `selectSubarray` (the Oblivious Subarray Selector,
spec section 4.4), whose implementation is not under src/ (only callers import
it from './utils.js'). Rejects `start = 0`; performs one conditional-rotate
pass per bit of `start` (treated as a `ceil(log2 len)`-bit number), where pass
`j` moves position `i` to the value at `(i + 2 ^ j) mod len` when bit `j` of
`start` is set; returns the first `runLength` positions, failing when any
returned word is zero. -/
def selectSubarray (sequence : List Nat) (start runLength : Nat) :
    Except String (List Nat) :=
  if start = 0 then Except.error "Subarray start index must be non-zero!"
  else
    let bits := ceilLog2 sequence.length
    let rotated := (List.range bits).foldl
      (fun acc j => if start.testBit j then rotWords acc (2 ^ j) else acc) sequence
    let selected := rotated.take runLength
    if selected.all (fun w => w != 0) then Except.ok selected
    else Except.error "Selected subarray contains a null byte!"

/-- The standard padding of the empty message at capacity 64. -/
def emptyPadded64 : List Nat := 128 :: List.replicate 63 0

/-- The standard padding of the empty message at capacity 128. -/
def validBuffer128 : List Nat := emptyPadded64 ++ List.replicate 64 0

/-- Buffer equal to `emptyPadded64` with a non-zero byte placed right after the true content
boundary (byte 64), keeping the length a multiple of 64. -/
def tamperedBuffer128 : List Nat := emptyPadded64 ++ 1 :: List.replicate 63 0

/-- Sum of the equality indicators of `wordAtIndex` over positions `0 .. n-1`. -/
theorem indicator_sum (index n : Nat) :
    ((List.range n).map (fun i => (if index = i then 1 else 0 : Nat))).sum
      = if index < n then 1 else 0 := by
  induction n with
  | zero => simp
  | succ n ih =>
    rw [List.range_succ, List.map_append, List.sum_append, ih]
    simp only [List.map_cons, List.map_nil, List.sum_cons, List.sum_nil]
    split_ifs <;> omega

/-- Sum of the indicator-weighted words of `wordAtIndex` over `0 .. n-1`. -/
theorem indicator_mul_sum (index n : Nat) (l : List Nat) :
    ((List.range n).map (fun i => (if index = i then 1 else 0) * l.getD i 0)).sum
      = if index < n then l.getD index 0 else 0 := by
  induction n with
  | zero => simp
  | succ n ih =>
    rw [List.range_succ, List.map_append, List.sum_append, ih]
    simp only [List.map_cons, List.map_nil, List.sum_cons, List.sum_nil]
    by_cases h : index = n
    · subst h
      simp [Nat.lt_irrefl, Nat.lt_succ_self]
    · have h2 : (index < n + 1) = (index < n) := by
        apply propext; omega
      simp [h, h2]

/-- Claim C5: for every word array and index, `wordAtIndex` returns
`sequence[index]` (the indicator-weighted sum), and it fails with the
invalid-index error exactly when `index` lies outside `[0, len(sequence))`. -/
theorem wordAtIndex_spec (wordsArray : List Nat) (index : Nat) :
    (index < wordsArray.length →
      wordAtIndex wordsArray index = Except.ok (wordsArray.getD index 0)) ∧
    (wordsArray.length ≤ index →
      wordAtIndex wordsArray index = Except.error invalidIndexMsg) := by
  have hv := indicator_mul_sum index wordsArray.length wordsArray
  have hs := indicator_sum index wordsArray.length
  constructor
  · intro h
    simp only [wordAtIndex]
    rw [hv, hs, if_pos h, if_pos h]
    simp
  · intro h
    have h2 : ¬ index < wordsArray.length := by omega
    simp only [wordAtIndex]
    rw [hv, hs, if_neg h2, if_neg h2]
    simp

/-- Witness for `wordAtIndex_spec` at concrete inputs: index 1 of `[4, 5]` is
returned, index 9 is rejected with the invalid-index error. -/
theorem wordAtIndex_spec_witness :
    wordAtIndex [4, 5] 1 = Except.ok 5 ∧
    wordAtIndex [4, 5] 9 = Except.error invalidIndexMsg :=
  ⟨(wordAtIndex_spec [4, 5] 1).1 (by decide), (wordAtIndex_spec [4, 5] 9).2 (by decide)⟩

/-- The zero-padding loop succeeds from counter `i` exactly when every word at
offset `j` with `paddingStart < i + j` is zero. -/
theorem zeroPadCheckAux_ok_iff (ps : Nat) (l : List Nat) : ∀ i : Nat,
    zeroPadCheckAux ps i l = Except.ok () ↔ ∀ j, ps < i + j → l.getD j 0 = 0 := by
  induction l with
  | nil =>
    intro i
    simp [zeroPadCheckAux]
  | cons w rest ih =>
    intro i
    simp only [zeroPadCheckAux]
    by_cases hcond : w * (if ps < i then 1 else 0) = 0
    · rw [if_pos hcond, ih (i + 1)]
      constructor
      · intro hrest j hj
        cases j with
        | zero =>
          simp only [List.getD_cons_zero]
          have hpi : ps < i := by omega
          rw [if_pos hpi] at hcond
          omega
        | succ j =>
          simp only [List.getD_cons_succ]
          exact hrest j (by omega)
      · intro hall j hj
        have := hall (j + 1) (by omega)
        simpa using this
    · rw [if_neg hcond]
      constructor
      · intro h
        cases h
      · intro hall
        exfalso
        by_cases hpi : ps < i
        · have hw := hall 0 (by omega)
          simp only [List.getD_cons_zero] at hw
          rw [if_pos hpi] at hcond
          omega
        · rw [if_neg hpi] at hcond
          omega

/-- When the zero-padding loop fails from counter `i`, the error names the
first offending flat position. -/
theorem zeroPadCheckAux_error (ps : Nat) (l : List Nat) : ∀ (i : Nat) (e : String),
    zeroPadCheckAux ps i l = Except.error e →
    ∃ j, j < l.length ∧ ps < i + j ∧ l.getD j 0 ≠ 0 ∧ e = paddingErrorMsg (i + j) ∧
      ∀ j2, j2 < j → ps < i + j2 → l.getD j2 0 = 0 := by
  induction l with
  | nil =>
    intro i e h
    simp [zeroPadCheckAux] at h
  | cons w rest ih =>
    intro i e h
    simp only [zeroPadCheckAux] at h
    by_cases hcond : w * (if ps < i then 1 else 0) = 0
    · rw [if_pos hcond] at h
      obtain ⟨j, hlen, hlt, hne, he, hmin⟩ := ih (i + 1) e h
      refine ⟨j + 1, by simp; omega, by omega, by simpa using hne, ?_, ?_⟩
      · rw [he]
        congr 1
        omega
      · intro j2 hj2 hpj2
        cases j2 with
        | zero =>
          simp only [List.getD_cons_zero]
          have hpi : ps < i := by omega
          rw [if_pos hpi] at hcond
          omega
        | succ j2 =>
          simp only [List.getD_cons_succ]
          exact hmin j2 (by omega) (by omega)
    · rw [if_neg hcond] at h
      have he : e = paddingErrorMsg i := (Except.error.inj h).symm
      have hpi : ps < i := by
        by_contra hnpi
        rw [if_neg hnpi] at hcond
        omega
      have hw : w ≠ 0 := by
        intro h0
        rw [h0] at hcond
        omega
      exact ⟨0, by simp, by omega, by simpa using hw, by simpa using he,
        fun j2 hj2 _ => absurd hj2 (Nat.not_lt_zero j2)⟩

/-- Claim C4: `assertZeroPadding` computes `paddingStart = (digestIndex + 8) * 2`
and succeeds exactly when every word of the flattened input at a position
strictly greater than `paddingStart` is zero (position `paddingStart` itself is
unconstrained); on failure the error message names the first offending index. -/
theorem assertZeroPadding_spec (messageBlocks : List (List Nat)) (digestIndex : Nat) :
    (assertZeroPadding messageBlocks digestIndex = Except.ok () ↔
      ∀ i, (digestIndex + 8) * 2 < i → messageBlocks.flatten.getD i 0 = 0) ∧
    (∀ e, assertZeroPadding messageBlocks digestIndex = Except.error e →
      ∃ i, (digestIndex + 8) * 2 < i ∧ messageBlocks.flatten.getD i 0 ≠ 0 ∧
        e = paddingErrorMsg i ∧
        ∀ j, j < i → (digestIndex + 8) * 2 < j → messageBlocks.flatten.getD j 0 = 0) := by
  constructor
  · have h := zeroPadCheckAux_ok_iff ((digestIndex + 8) * 2) messageBlocks.flatten 0
    simpa [assertZeroPadding] using h
  · intro e he
    obtain ⟨j, hlen, hlt, hne, hmsg, hmin⟩ :=
      zeroPadCheckAux_error ((digestIndex + 8) * 2) messageBlocks.flatten 0 e he
    exact ⟨j, by omega, hne, by simpa using hmsg,
      fun j2 h1 h2 => hmin j2 h1 (by omega)⟩

/-- Witness for `assertZeroPadding_spec`: a block array whose words all sit at
positions at most `paddingStart` passes the check. -/
theorem assertZeroPadding_spec_witness :
    assertZeroPadding [[1, 2], [3]] 0 = Except.ok () :=
  (assertZeroPadding_spec [[1, 2], [3]] 0).1.mpr
    (fun i hi => List.getD_eq_default _ _ (by simp; omega))

/-- The head of `List.scanl` is the seed. -/
theorem scanl_head (f : List Nat → List Nat → List Nat) (b : List Nat)
    (l : List (List Nat)) : (List.scanl f b l).getD 0 [] = b := by
  cases l <;> simp [List.scanl_nil, List.scanl_cons]

/-- Step equation of `List.scanl`: entry `i + 1` is `f` of entry `i` and the
`i`-th input. -/
theorem scanl_step (f : List Nat → List Nat → List Nat) :
    ∀ (blocks : List (List Nat)) (seed : List Nat) (i : Nat), i < blocks.length →
      (List.scanl f seed blocks).getD (i + 1) [] =
        f ((List.scanl f seed blocks).getD i []) (blocks.getD i []) := by
  intro blocks
  induction blocks with
  | nil =>
    intro seed i hi
    exact absurd hi (Nat.not_lt_zero i)
  | cons b rest ih =>
    intro seed i hi
    rw [List.scanl_cons]
    cases i with
    | zero =>
      simp only [List.cons_append, List.nil_append, List.getD_cons_succ,
        List.getD_cons_zero]
      exact scanl_head f (f seed b) rest
    | succ i =>
      simp only [List.cons_append, List.nil_append, List.getD_cons_succ]
      exact ih (f seed b) i (by simpa using hi)

/-- Claim C9: the compression pipeline of `dynamicSHA256` produces exactly
`n + 1` hash states for `n` blocks: state 0 is the seed and state `i + 1` is
the compression of state `i` with block `i`; every block is processed. -/
theorem compressionPipeline_spec (seed : List Nat) (blocks : List (List Nat)) :
    (compressionPipeline seed blocks).length = blocks.length + 1 ∧
    (compressionPipeline seed blocks).getD 0 [] = seed ∧
    ∀ i, i < blocks.length →
      (compressionPipeline seed blocks).getD (i + 1) [] =
        sha256Step ((compressionPipeline seed blocks).getD i []) (blocks.getD i []) :=
  ⟨List.length_scanl seed blocks, scanl_head sha256Step seed blocks,
    fun i hi => scanl_step sha256Step blocks seed i hi⟩

/-- Witness for `compressionPipeline_spec`: with one all-zero block, state 1 of
the pipeline is the compression of the seed with that block. -/
theorem compressionPipeline_spec_witness :
    (compressionPipeline shaInitialState [List.replicate 16 0]).getD 1 [] =
      sha256Step ((compressionPipeline shaInitialState [List.replicate 16 0]).getD 0 [])
        (([List.replicate 16 0] : List (List Nat)).getD 0 []) :=
  (compressionPipeline_spec shaInitialState [List.replicate 16 0]).2.2 0 (by decide)

/-- Recombining the 4 witnessed bytes of `wordToBytes` yields the word reduced
modulo 2^32, for either endianness. -/
theorem bytesToWord_wordBytes (w : Nat) (rev : Bool) :
    bytesToWord ((List.range 4).map
      (fun k => w / 2 ^ (8 * (if rev then 3 - k else k)) % 256)) rev = w % 4294967296 := by
  have h4 : List.range 4 = [0, 1, 2, 3] := rfl
  rw [h4]
  cases rev <;> simp [bytesToWord, bytesToWordAux] <;> omega

/-- Claim C10: `wordToBytes(w, 4, reverseEndianness)` succeeds if and only if
`w < 2^32`, and on success returns 4 bytes whose recomposition under the chosen
endianness equals `w` exactly, so digest serialization can never silently
truncate an out-of-range word. -/
theorem wordToBytes_spec (w : Nat) (rev : Bool) :
    ((wordToBytes w 4 rev).isOk = true ↔ w < 4294967296) ∧
    (∀ bs, wordToBytes w 4 rev = Except.ok bs →
      bs.length = 4 ∧ bytesToWord bs rev = w) := by
  have key := bytesToWord_wordBytes w rev
  constructor
  · simp only [wordToBytes]
    rw [key]
    rcases Nat.lt_or_ge w 4294967296 with h | h
    · rw [if_pos (Nat.mod_eq_of_lt h)]
      exact ⟨fun _ => h, fun _ => rfl⟩
    · have hne : w % 4294967296 ≠ w := by omega
      rw [if_neg hne]
      exact ⟨fun hh => absurd hh (by decide), fun hh => absurd hh (by omega)⟩
  · intro bs hbs
    simp only [wordToBytes] at hbs
    rw [key] at hbs
    by_cases hc : w % 4294967296 = w
    · rw [if_pos hc] at hbs
      have hb := Except.ok.inj hbs
      subst hb
      refine ⟨by simp, ?_⟩
      rw [bytesToWord_wordBytes w rev, hc]
    · rw [if_neg hc] at hbs
      cases hbs

/-- Witness for `wordToBytes_spec`: the word `0x01020304` decomposes to
`[1, 2, 3, 4]` in reversed endianness and recomposes to itself. -/
theorem wordToBytes_spec_witness :
    ([1, 2, 3, 4] : List Nat).length = 4 ∧ bytesToWord [1, 2, 3, 4] true = 16909060 :=
  (wordToBytes_spec 16909060 true).2 [1, 2, 3, 4] (by decide)

/-- Four consecutive elements of a list, selected with `drop` and `take`. -/
theorem take4_drop (l : List Nat) (m : Nat) (h : m + 4 ≤ l.length) :
    (l.drop m).take 4 =
      [l.getD m 0, l.getD (m + 1) 0, l.getD (m + 2) 0, l.getD (m + 3) 0] := by
  have h0 : m < l.length := by omega
  have h1 : m + 1 < l.length := by omega
  have h2 : m + 2 < l.length := by omega
  have h3 : m + 3 < l.length := by omega
  rw [List.drop_eq_getElem_cons h0, List.drop_eq_getElem_cons h1,
    List.drop_eq_getElem_cons h2, List.drop_eq_getElem_cons h3,
    List.getD_eq_getElem l 0 h0, List.getD_eq_getElem l 0 h1,
    List.getD_eq_getElem l 0 h2, List.getD_eq_getElem l 0 h3]
  rfl

/-- Value of `bytesToWord` on four explicit bytes in reversed (big-endian) order. -/
theorem bytesToWord_be4 (a b c d : Nat) :
    bytesToWord [a, b, c, d] true = a * 16777216 + b * 65536 + c * 256 + d := by
  simp [bytesToWord, bytesToWordAux]
  try ring

/-- Value of `bytesToWord` on four explicit bytes in little-endian order. -/
theorem bytesToWord_le4 (a b c d : Nat) :
    bytesToWord [a, b, c, d] false = a + b * 256 + c * 65536 + d * 16777216 := by
  simp [bytesToWord, bytesToWordAux]
  try ring

/-- Claim C6: for every 32-byte precomputed hash, `partialSHA256` returns
exactly the same result (and fails in exactly the same cases) as
`dynamicSHA256` seeded with the precomputed hash parsed as 8 big-endian
32-bit words. -/
theorem partialSHA256_equiv (h rem : List Nat) (idx : Nat) (hl : h.length = 32) :
    partialSHA256 h rem idx = dynamicSHA256 rem idx (specToHashState h) := by
  have hchunk : chunkE h 4 =
      Except.ok ((List.range 8).map (fun i => (h.drop (4 * i)).take 4)) := by
    simp only [chunkE, hl]
    norm_num
  have hwords : bytesToWords h 4 = Except.ok (specToHashState h) := by
    simp only [bytesToWords, hchunk]
    congr 1
    simp only [specToHashState, List.map_map]
    apply List.map_congr_left
    intro i hi
    have hi8 : i < 8 := List.mem_range.mp hi
    simp only [Function.comp]
    rw [take4_drop h (4 * i) (by omega), bytesToWord_be4]
  simp only [partialSHA256, hwords]
  rfl

/-- Witness for `partialSHA256_equiv` at a concrete 32-byte precomputed hash. -/
theorem partialSHA256_equiv_witness :
    partialSHA256 (List.range 32) [] 0 =
      dynamicSHA256 [] 0 (specToHashState (List.range 32)) :=
  partialSHA256_equiv (List.range 32) [] 0 (by decide)

/-- Claim C7 counterexample: a 62-byte buffer (not a multiple of 64) is not
rejected by `generateMessageBlocks` — the final short slice still yields a
16th word, so the splitter succeeds instead of failing with the
length-multiple error. -/
theorem generateMessageBlocks_not_multiple_succeeds :
    (62 : Nat) % 64 ≠ 0 ∧ (generateMessageBlocks (List.replicate 62 1)).isOk = true := by
  decide

/-- Claim C7 (amended): `generateMessageBlocks` fails with the length-multiple
error exactly when the number of 4-byte slices (rounded up) is not a multiple
of 16; for buffers whose length is a multiple of 64 it returns
`length / 64` blocks of exactly 16 words, each word formed from 4 consecutive
bytes in reverse-endian (big-endian) order. -/
theorem generateMessageBlocks_spec (bytes : List Nat) :
    ((generateMessageBlocks bytes).isOk = true ↔ ((bytes.length + 3) / 4) % 16 = 0) ∧
    (bytes.length % 64 = 0 →
      generateMessageBlocks bytes = Except.ok ((List.range (bytes.length / 64)).map (fun j =>
        (List.range 16).map (fun t =>
          bytes.getD (64 * j + 4 * t) 0 * 16777216 + bytes.getD (64 * j + 4 * t + 1) 0 * 65536 +
          bytes.getD (64 * j + 4 * t + 2) 0 * 256 + bytes.getD (64 * j + 4 * t + 3) 0)))) := by
  constructor
  · simp only [generateMessageBlocks, chunkE, List.length_map, List.length_range]
    by_cases hc : ((bytes.length + 3) / 4) % 16 = 0
    · rw [if_pos hc]
      exact ⟨fun _ => hc, fun _ => rfl⟩
    · rw [if_neg hc]
      exact ⟨fun hh => absurd hh (by decide), fun hh => absurd hh hc⟩
  · intro h64
    have h4 : bytes.length % 4 = 0 := by omega
    have hlen : (bytes.length + 3) / 4 = bytes.length / 4 := by omega
    have h16 : bytes.length / 4 % 16 = 0 := by omega
    have hdiv : bytes.length / 4 / 16 = bytes.length / 64 := by omega
    simp only [generateMessageBlocks, chunkE, List.length_map, List.length_range, hlen,
      h16, if_pos, hdiv]
    congr 1
    apply List.map_congr_left
    intro j hj
    have hj64 : j < bytes.length / 64 := List.mem_range.mp hj
    apply List.ext_get
    · simp only [List.length_take, List.length_drop, List.length_map, List.length_range]
      omega
    · intro t ht1 ht2
      have ht16 : t < 16 := by simpa using ht2
      have hbound : 16 * j + t < bytes.length / 4 := by omega
      have hw : 4 * (16 * j + t) + 4 ≤ bytes.length := by omega
      simp only [List.get_eq_getElem, List.getElem_take, List.getElem_drop,
        List.getElem_map, List.getElem_range]
      rw [take4_drop bytes (4 * (16 * j + t)) hw]
      have harith : 4 * (16 * j + t) = 64 * j + 4 * t := by ring
      rw [harith]
      simp only [List.reverse_cons, List.reverse_nil, List.nil_append, List.cons_append]
      rw [bytesToWord_le4]
      ring

/-- Witness for `generateMessageBlocks_spec`: a 64-byte buffer of the bytes
`0 .. 63` splits into one block of 16 big-endian words. -/
theorem generateMessageBlocks_spec_witness :
    generateMessageBlocks (List.range 64) =
      Except.ok ((List.range (1 : Nat)).map (fun j =>
        (List.range 16).map (fun t =>
          (List.range 64).getD (64 * j + 4 * t) 0 * 16777216 +
          (List.range 64).getD (64 * j + 4 * t + 1) 0 * 65536 +
          (List.range 64).getD (64 * j + 4 * t + 2) 0 * 256 +
          (List.range 64).getD (64 * j + 4 * t + 3) 0))) := by
  have h := (generateMessageBlocks_spec (List.range 64)).2 (by decide)
  rw [h]
  decide

/-- With enough fuel, `bitsAux` bounds its argument by the computed power of 2. -/
theorem bitsAux_le (fuel : Nat) : ∀ m : Nat, m ≤ fuel → m ≤ 2 ^ bitsAux fuel m := by
  induction fuel with
  | zero =>
    intro m h
    simp only [bitsAux]
    omega
  | succ fuel ih =>
    intro m h
    simp only [bitsAux]
    by_cases h1 : m ≤ 1
    · rw [if_pos h1]
      simpa using h1
    · rw [if_neg h1]
      have hm : (m + 1) / 2 ≤ fuel := by omega
      have h2 := ih ((m + 1) / 2) hm
      have h3 : m ≤ 2 * ((m + 1) / 2) := by omega
      calc m ≤ 2 * ((m + 1) / 2) := h3
        _ ≤ 2 * 2 ^ bitsAux fuel ((m + 1) / 2) := by omega
        _ = 2 ^ (bitsAux fuel ((m + 1) / 2) + 1) := by ring

/-- Bound of `ceilLog2`: `n ≤ 2 ^ ceilLog2 n`. -/
theorem ceilLog2_le (n : Nat) : n ≤ 2 ^ ceilLog2 n := bitsAux_le n n (Nat.le_refl n)

/-- Rotation preserves length. -/
theorem rotWords_length (l : List Nat) (n : Nat) : (rotWords l n).length = l.length := by
  simp only [rotWords, List.length_append, List.length_drop, List.length_take]
  rcases Nat.eq_zero_or_pos l.length with h | h
  · simp [h]
  · have := Nat.mod_lt n h
    omega

/-- Element-wise description of rotation: position `i` of `rotWords l n` holds
the element of `l` at `(i + n) mod len`. -/
theorem rotWords_getD (l : List Nat) (n i : Nat) (h : i < l.length) :
    (rotWords l n).getD i 0 = l.getD ((i + n) % l.length) 0 := by
  have hlen : 0 < l.length := by omega
  have hk : n % l.length < l.length := Nat.mod_lt n hlen
  have hmod : (i + n) % l.length = (i + n % l.length) % l.length :=
    (Nat.add_mod_mod i n l.length).symm
  rw [hmod]
  simp only [rotWords]
  by_cases hik : i + n % l.length < l.length
  · rw [Nat.mod_eq_of_lt hik, Nat.add_comm i (n % l.length)]
    have hdroplen : i < (l.drop (n % l.length)).length := by
      simp only [List.length_drop]
      omega
    rw [List.getD_append _ _ _ _ hdroplen,
      List.getD_eq_getElem _ _ hdroplen, List.getElem_drop,
      List.getD_eq_getElem _ _ (by omega : n % l.length + i < l.length)]
  · have hge : l.length ≤ i + n % l.length := by omega
    have hmod2 : (i + n % l.length) % l.length = i + n % l.length - l.length := by
      rw [Nat.mod_eq_sub_mod hge]
      exact Nat.mod_eq_of_lt (by omega)
    rw [hmod2]
    have hgei : (l.drop (n % l.length)).length ≤ i := by
      simp only [List.length_drop]
      omega
    have hiapp : i < ((l.drop (n % l.length)) ++ (l.take (n % l.length))).length := by
      simp only [List.length_append, List.length_drop, List.length_take]
      omega
    rw [List.getD_eq_getElem _ _ hiapp, List.getElem_append_right hgei,
      List.getElem_take]
    have hidx : i - (l.drop (n % l.length)).length = i + n % l.length - l.length := by
      simp only [List.length_drop]
      omega
    simp only [hidx]
    exact (List.getD_eq_getElem l 0 (by omega)).symm

/-- Composing two rotations adds the rotation amounts. -/
theorem rotWords_rotWords (l : List Nat) (m n : Nat) :
    rotWords (rotWords l m) n = rotWords l (n + m) := by
  apply List.ext_get
  · rw [rotWords_length, rotWords_length, rotWords_length]
  · intro i h1 h2
    have hl1 : i < (rotWords l m).length := by
      rw [rotWords_length]
      rw [rotWords_length, rotWords_length] at h1
      exact h1
    have hl : i < l.length := by rw [rotWords_length] at hl1; exact hl1
    have hlen : 0 < l.length := by omega
    simp only [List.get_eq_getElem]
    rw [← List.getD_eq_getElem _ 0 h1, ← List.getD_eq_getElem _ 0 h2]
    rw [rotWords_getD _ _ _ hl1, rotWords_length]
    rw [rotWords_getD _ _ _ (Nat.mod_lt _ hlen), rotWords_getD _ _ _ hl]
    congr 1
    conv_lhs => rw [Nat.mod_add_mod]
    congr 1
    omega

/-- Rotation by zero is the identity. -/
theorem rotWords_zero (l : List Nat) : rotWords l 0 = l := by
  simp [rotWords]

/-- The conditional-rotate passes of `selectSubarray` over the first `B` bits
of `start` amount to one rotation by `start mod 2 ^ B`. -/
theorem selectPasses_eq_rot (seq : List Nat) (start : Nat) : ∀ B : Nat,
    (List.range B).foldl
      (fun acc j => if start.testBit j then rotWords acc (2 ^ j) else acc) seq =
      rotWords seq (start % 2 ^ B) := by
  intro B
  induction B with
  | zero =>
    simp [Nat.mod_one, rotWords_zero]
  | succ B ih =>
    rw [List.range_succ, List.foldl_append, ih]
    simp only [List.foldl_cons, List.foldl_nil]
    have hsplit : start % 2 ^ (B + 1) = start % 2 ^ B + 2 ^ B * (start / 2 ^ B % 2) := by
      rw [pow_succ]
      exact Nat.mod_mul
    by_cases hb : start.testBit B = true
    · rw [if_pos hb, rotWords_rotWords]
      have h2 : start / 2 ^ B % 2 = 1 := by
        have hd : decide (start / 2 ^ B % 2 = 1) = true := by
          rw [← Nat.testBit_to_div_mod]
          exact hb
        exact of_decide_eq_true hd
      congr 1
      rw [hsplit, h2]
      ring
    · rw [if_neg hb]
      have h2 : start / 2 ^ B % 2 = 0 := by
        have hd : ¬ (start / 2 ^ B % 2 = 1) := by
          intro h1
          apply hb
          rw [Nat.testBit_to_div_mod]
          exact decide_eq_true h1
        omega
      congr 1
      rw [hsplit, h2]
      ring

/-- A `take` of a list rewritten as a map over `List.range`. -/
theorem take_eq_map_range (l : List Nat) (k : Nat) (h : k ≤ l.length) :
    l.take k = (List.range k).map (fun i => l.getD i 0) := by
  apply List.ext_get
  · simp only [List.length_take, List.length_map, List.length_range]
    omega
  · intro i h1 h2
    have hik : i < k := by simpa using h2
    simp only [List.get_eq_getElem, List.getElem_take, List.getElem_map, List.getElem_range]
    exact (List.getD_eq_getElem l 0 (by omega)).symm

/-- Claim C8: for `start ≠ 0` in range and `runLength ≤ len(sequence)`, the
oblivious subarray selector returns `sequence[(i + start) mod len]` for
`i = 0 .. runLength - 1` (computed by one conditional-rotate pass per bit of
`start`), and fails with the null-byte error exactly when some returned word
is zero. -/
theorem selectSubarray_spec (seq : List Nat) (start runLength : Nat)
    (h0 : start ≠ 0) (hs : start < seq.length) (hr : runLength ≤ seq.length) :
    selectSubarray seq start runLength =
      if ∀ i < runLength, seq.getD ((i + start) % seq.length) 0 ≠ 0
      then Except.ok ((List.range runLength).map
        (fun i => seq.getD ((i + start) % seq.length) 0))
      else Except.error "Selected subarray contains a null byte!" := by
  have hmodlt : start % 2 ^ ceilLog2 seq.length = start :=
    Nat.mod_eq_of_lt (Nat.lt_of_lt_of_le hs (ceilLog2_le seq.length))
  have hrot := selectPasses_eq_rot seq start (ceilLog2 seq.length)
  rw [hmodlt] at hrot
  have htake : (rotWords seq start).take runLength =
      (List.range runLength).map (fun i => seq.getD ((i + start) % seq.length) 0) := by
    rw [take_eq_map_range _ _ (by rw [rotWords_length]; exact hr)]
    apply List.map_congr_left
    intro i hi
    have hilt : i < runLength := List.mem_range.mp hi
    exact rotWords_getD seq start i (by omega)
  have hall : ((rotWords seq start).take runLength).all (fun w => w != 0) =
      decide (∀ i < runLength, seq.getD ((i + start) % seq.length) 0 ≠ 0) := by
    rw [htake]
    rcases Decidable.em (∀ i < runLength, seq.getD ((i + start) % seq.length) 0 ≠ 0) with hp | hp
    · rw [decide_eq_true hp]
      rw [List.all_eq_true]
      intro x hx
      obtain ⟨i, hi, rfl⟩ := List.mem_map.mp hx
      have := hp i (List.mem_range.mp hi)
      simpa using this
    · rw [decide_eq_false hp]
      rw [← Bool.not_eq_true, List.all_eq_true]
      intro hcon
      apply hp
      intro i hi
      have := hcon _ (List.mem_map.mpr ⟨i, List.mem_range.mpr hi, rfl⟩)
      simpa using this
  simp only [selectSubarray, if_neg h0, hrot, hall]
  rcases Decidable.em (∀ i < runLength, seq.getD ((i + start) % seq.length) 0 ≠ 0) with hp | hp
  · rw [if_pos hp, decide_eq_true hp, if_pos rfl, htake]
  · rw [if_neg hp, decide_eq_false hp]
    simp

/-- Witness for `selectSubarray_spec`: selecting a run of 2 from `[5, 6, 7]`
starting at index 1 yields `[6, 7]`. -/
theorem selectSubarray_spec_witness :
    selectSubarray [5, 6, 7] 1 2 = Except.ok [6, 7] := by
  have h := selectSubarray_spec [5, 6, 7] 1 2 (by decide) (by decide) (by decide)
  rw [h]
  decide

/-- Known-answer validation of the embedded SHA-256: the digest of the empty
message is the standard value
`e3b0c44298fc1c149afbf4c8996fb92427ae41e4649b934ca495991b7852b855`. -/
theorem sha256Bytes_empty :
    sha256Bytes [] =
      [0xe3, 0xb0, 0xc4, 0x42, 0x98, 0xfc, 0x1c, 0x14, 0x9a, 0xfb, 0xf4, 0xc8,
       0x99, 0x6f, 0xb9, 0x24, 0x27, 0xae, 0x41, 0xe4, 0x64, 0x9b, 0x93, 0x4c,
       0xa4, 0x95, 0x99, 0x1b, 0x78, 0x52, 0xb8, 0x55] := by
  decide

/-- Claim C1: evaluation at the failing input `m = []`, `capacity = 64`. The
padding helper returns the standard padded buffer with `digestIndex = 0`, and
`dynamicSHA256` on that buffer succeeds but returns the bytes of the seed
state (the SHA-256 initialization vector) rather than the standard SHA-256
digest of the empty message: the flattened state sequence contains the seed at
word offsets 0-7, so the helper-supplied index addresses the state one
compression too early. -/
theorem dynamicSHA256_roundtrip_bug :
    dynamicSha256Pad [] 64 = Except.ok (emptyPadded64, 0) ∧
    dynamicSHA256 emptyPadded64 0 shaInitialState =
      Except.ok [0x6a, 0x09, 0xe6, 0x67, 0xbb, 0x67, 0xae, 0x85, 0x3c, 0x6e, 0xf3, 0x72,
                 0xa5, 0x4f, 0xf5, 0x3a, 0x51, 0x0e, 0x52, 0x7f, 0x9b, 0x05, 0x68, 0x8c,
                 0x1f, 0x83, 0xd9, 0xab, 0x5b, 0xe0, 0xcd, 0x19] ∧
    dynamicSHA256 emptyPadded64 0 shaInitialState ≠ Except.ok (sha256Bytes []) := by
  refine ⟨by decide, by decide, ?_⟩
  rw [sha256Bytes_empty]
  decide

/-- Claim C2: evaluation at the failing input. `validBuffer128` is the padded
empty message at capacity 128 with true `digestIndex = 0`; `tamperedBuffer128`
sets the byte right after the true content boundary (byte 64) to 1, keeping
the length a multiple of 64. `dynamicSHA256` nevertheless succeeds and returns
a digest: the function never invokes `assertZeroPadding`, so no
padding-violation is raised. -/
theorem dynamicSHA256_tamper_accepted :
    dynamicSha256Pad [] 128 = Except.ok (validBuffer128, 0) ∧
    tamperedBuffer128.length % 64 = 0 ∧
    tamperedBuffer128.getD 64 0 ≠ 0 ∧
    (dynamicSHA256 tamperedBuffer128 0 shaInitialState).isOk = true := by
  decide

/-- Claim C3: evaluation at the failing input. On the valid padded empty
message at capacity 128 (true `digestIndex = 0`), supplying the wrong
`digestIndex = 16` does not fail: `dynamicSHA256` succeeds and returns a
digest different from the standard SHA-256 hash of the empty message. -/
theorem dynamicSHA256_false_index_accepted :
    dynamicSha256Pad [] 128 = Except.ok (validBuffer128, 0) ∧
    (dynamicSHA256 validBuffer128 16 shaInitialState).isOk = true ∧
    dynamicSHA256 validBuffer128 16 shaInitialState ≠ Except.ok (sha256Bytes []) := by
  refine ⟨by decide, by decide, ?_⟩
  rw [sha256Bytes_empty]
  decide
